import Mathlib

/-!
Verification development for the sync-stream S3 client
(src/lib/AwsSimpleStorageService.ts).

The service is a directory-emulation layer over a flat key/value object
store.  We shallowly embed the path algebra and the store-facing operations:

* JavaScript string primitives used by the source are modelled on
  List Char: the regex replace of runs of slashes, String.prototype.trim,
  String.prototype.replace with a string pattern (first occurrence only),
  startsWith/endsWith.
* Node's path.posix.normalize is modelled segment-wise, following the
  normalizeString algorithm of Node's lib/path.js.
* The S3 client is modelled as a finite store (association list of key and
  body) plus a trace of issued commands.  Listing implements the
  prefix/delimiter semantics of ListObjectsV2 on a single complete page;
  the paginated client (which can report IsTruncated and hand out
  NextContinuationToken) is modelled separately for the listing
  aggregator, since those two behaviours are exercised by different
  operations.

All definitions are structurally recursive so that concrete runs reduce
inside the kernel.
-/

/-! ## JavaScript character-level primitives -/

/-- Whitespace characters recognised by String.prototype.trim (ASCII part;
the source paths never contain the exotic Unicode spaces). -/
def jsWhitespace (c : Char) : Bool :=
  c = ' ' || c = '\t' || c = '\n' || c = '\r' || c = '\x0b' || c = '\x0c'

/-- Strip leading and trailing whitespace, as String.prototype.trim. -/
def trimChars (l : List Char) : List Char :=
  ((l.dropWhile jsWhitespace).reverse.dropWhile jsWhitespace).reverse

/-- Worker for the regex replace.  The flag records whether we are inside a
run of backslashes whose single replacement slash was already emitted. -/
def replCharsAux : Bool → List Char → List Char
  | _, [] => []
  | inRun, c :: rest =>
    if c = '\\' then
      if inRun then replCharsAux true rest else '/' :: replCharsAux true rest
    else c :: replCharsAux false rest

/-- Model of s.replace(two-alternative slash regex, slash) from the source:
each forward slash is replaced by itself and each maximal run of
backslashes is replaced by a single forward slash. -/
def replChars (l : List Char) : List Char := replCharsAux false l

/-- Does the character list start with a forward slash? -/
def startsSlash : List Char → Bool
  | [] => false
  | c :: _ => decide (c = '/')

/-- Does the character list end with a forward slash? -/
def endsSlash (l : List Char) : Bool := decide (l.getLast? = some '/')

/-! ## Node path.posix.normalize, segment-wise -/

/-- Split on the forward slash; "a/b" gives two segments, a leading or
trailing slash contributes an empty segment. -/
def splitSegs : List Char → List (List Char)
  | [] => [[]]
  | c :: rest =>
    if c = '/' then [] :: splitSegs rest
    else
      match splitSegs rest with
      | [] => [[c]]
      | s :: ss => (c :: s) :: ss

/-- One step of Node's normalizeString: skip empty and dot segments, let a
dot-dot segment pop the previous one (or survive at the top of a relative
path). -/
def resolveStep (allowAbove : Bool) (acc : List (List Char)) (seg : List Char) :
    List (List Char) :=
  if seg = [] ∨ seg = ['.'] then acc
  else if seg = ['.', '.'] then
    match acc.getLast? with
    | some last =>
      if last = ['.', '.'] then (if allowAbove then acc ++ [seg] else acc)
      else acc.dropLast
    | none => if allowAbove then [seg] else []
  else acc ++ [seg]

/-- Resolve a whole segment list. -/
def resolveSegs (allowAbove : Bool) (segs : List (List Char)) : List (List Char) :=
  segs.foldl (resolveStep allowAbove) []

/-- Join segments with forward slashes. -/
def joinSegs : List (List Char) → List Char
  | [] => []
  | [s] => s
  | s :: rest => s ++ '/' :: joinSegs rest

/-- Reassemble a normalized path from its absoluteness flag, resolved
segments and trailing-separator flag, as Node's posix normalize does. -/
def renderSegs (abs : Bool) (segs : List (List Char)) (trail : Bool) : List Char :=
  if segs = [] then (if abs then ['/'] else if trail then ['.', '/'] else ['.'])
  else (if abs then ['/'] else []) ++ joinSegs segs ++ (if trail then ['/'] else [])

/-- Model of Node's path.posix.normalize. -/
def posixNormChars (l : List Char) : List Char :=
  if l = [] then ['.']
  else renderSegs (startsSlash l) (resolveSegs (!startsSlash l) (splitSegs l))
    (endsSlash l)

/-! ## String wrappers -/

def jsTrim (s : String) : String := ⟨trimChars s.data⟩

def jsReplaceSlashes (s : String) : String := ⟨replChars s.data⟩

def posixNormalize (s : String) : String := ⟨posixNormChars s.data⟩

def strStartsSlash (s : String) : Bool := startsSlash s.data

def strEndsSlash (s : String) : Bool := endsSlash s.data

def strStartsWith (s pre : String) : Bool := List.isPrefixOf pre.data s.data

/-- String.prototype.replace with a string pattern: replace the first
occurrence only (used by the directory-copy key substitution). -/
def replaceOnceChars (pat rep : List Char) : List Char → List Char
  | [] => if List.isPrefixOf pat [] then rep else []
  | c :: rest =>
    if List.isPrefixOf pat (c :: rest) then rep ++ (c :: rest).drop pat.length
    else c :: replaceOnceChars pat rep rest

def jsReplaceOnce (s pat rep : String) : String :=
  ⟨replaceOnceChars pat.data rep.data s.data⟩

/-! ## normalizePath -/

/-- The interface of a normalized path as in
src/interface/IAwsSimpleStorageServiceNormalizedPath. -/
structure IAwsSimpleStorageServiceNormalizedPath where
  directory : Bool
  path : String
deriving DecidableEq

/-- The strict triple-equality test (directory === true) of the source. -/
def isTrueOpt : Option Bool → Bool
  | some true => true
  | _ => false

/-- The directory flag after the source's line-655 check: the initial
directory argument (defaulted to false) is promoted to true when the flag
was strictly true or either the replaced or the raw path ends in a slash. -/
def npDir1 (objectPath : List Char) (directory : Option Bool) : Bool :=
  if (isTrueOpt directory || endsSlash (replChars objectPath)
      || endsSlash objectPath) && !(directory.getD false)
  then true else directory.getD false

/-- response.path after the source's line 662: trim, posix-normalize and
re-replace slashes. -/
def npPath1 (objectPath : List Char) : List Char :=
  replChars (posixNormChars (trimChars (replChars objectPath)))

/-- response.path after the source's line 665: strip one leading slash. -/
def npPath2 (objectPath : List Char) : List Char :=
  if startsSlash (npPath1 objectPath) then (npPath1 objectPath).drop 1
  else npPath1 objectPath

/-- response.path after the source's lines 668-670: append the forced
trailing slash for directories and normalize again. -/
def npPath3 (objectPath : List Char) (directory : Option Bool) : List Char :=
  if (isTrueOpt directory || npDir1 objectPath directory
      || endsSlash objectPath) && !endsSlash (npPath2 objectPath)
  then replChars (posixNormChars (npPath2 objectPath ++ ['/']))
  else npPath2 objectPath

/-- Character-level core of normalizePath (source lines 642-674), staged
exactly as the source mutates the response record: slash replacement,
directory-intent detection, trim + posix normalization + slash replacement
with leading-slash strip, and the forced trailing slash for directories. -/
def normalizePathChars (objectPath : List Char) (directory : Option Bool) :
    Bool × List Char :=
  (npDir1 objectPath directory, npPath3 objectPath directory)

/-- normalizePath of the source, wrapping the character-level core. -/
def normalizePath (objectPath : String) (directory : Option Bool) :
    IAwsSimpleStorageServiceNormalizedPath :=
  let r := normalizePathChars objectPath.data directory
  ⟨r.1, ⟨r.2⟩⟩

/-! ## Hidden-name helper -/

/-- The two-character sentinel for hidden items (the source constant
AwsSimpleStorageServiceHiddenPrefix). -/
def AwsSimpleStorageServiceHiddenMarker : String := "_."

/-- generateHiddenName of the source (lines 362-370): prepend the sentinel
when the name already starts with it, otherwise return the name. -/
def generateHiddenName (objectName : String) : String :=
  if strStartsWith objectName AwsSimpleStorageServiceHiddenMarker
  then AwsSimpleStorageServiceHiddenMarker ++ objectName
  else objectName

/-! ## The byte range of getObjectAsync -/

/-- JavaScript truthiness of an optional numeric argument: undefined and
zero are falsy. -/
def truthyNum : Option Int → Bool
  | none => false
  | some v => decide (v ≠ 0)

/-- The Range string computed by getObjectAsync (source lines 390-400). -/
def rangeOf (start stop : Option Int) : Option String :=
  if truthyNum start && truthyNum stop then
    some ("range=" ++ toString (start.getD 0) ++ "-" ++ toString (stop.getD 0))
  else if truthyNum start then some ("range=" ++ toString (start.getD 0))
  else if truthyNum stop then some ("range=0-" ++ toString (stop.getD 0))
  else none

/-! ## The object store -/

/-- The store: keys with their bodies, keys pairwise distinct. -/
abbrev Store := List (String × String)

/-- Commands the service sends to the store client. -/
inductive S3Command where
  | headCmd (key : String)
  | listCmd (pre : String) (delim : Option String) (token : Option String)
  | getCmd (key : String) (range : Option String)
  | putCmd (key : String) (body : String)
  | delCmd (key : String)
  | delManyCmd (keys : List String)
deriving DecidableEq

/-- Is the command one of the two deletion commands? -/
def isDeleteCommand : S3Command → Bool
  | S3Command.delCmd _ => true
  | S3Command.delManyCmd _ => true
  | _ => false

def lookupS3 (st : Store) (k : String) : Option String :=
  (st.find? (fun e => decide (e.1 = k))).map (fun e => e.2)

def insertS3 (st : Store) (k v : String) : Store :=
  if st.any (fun e => decide (e.1 = k))
  then st.map (fun e => if e.1 = k then (k, v) else e)
  else st ++ [(k, v)]

def removeS3 (st : Store) (k : String) : Store :=
  st.filter (fun e => decide (¬ e.1 = k))

def removeManyS3 (st : Store) (ks : List String) : Store :=
  st.filter (fun e => decide (¬ e.1 ∈ ks))

/-! ## Listing semantics of the store client -/

/-- Lexicographic comparison on char lists (S3 lists keys in byte order;
for the ASCII keys of this development code-point order coincides). -/
def lexLe : List Char → List Char → Bool
  | [], _ => true
  | _ :: _, [] => false
  | a :: as, b :: bs => if a = b then lexLe as bs else decide (a < b)

def insertSorted (k : String) : List String → List String
  | [] => [k]
  | x :: rest =>
    if lexLe k.data x.data then k :: x :: rest else x :: insertSorted k rest

def sortKeys (l : List String) : List String := l.foldr insertSorted []

/-- Deduplicate keeping first occurrences (S3 reports each common prefix
once, in order). -/
def dedupFirstAux (seen : List String) : List String → List String
  | [] => []
  | x :: rest =>
    if x ∈ seen then dedupFirstAux seen rest
    else x :: dedupFirstAux (x :: seen) rest

def dedupFirst (l : List String) : List String := dedupFirstAux [] l

def strContainsSlash (s : String) : Bool := decide ('/' ∈ s.data)

def dropStrPrefixKey (pre s : String) : String := ⟨s.data.drop pre.data.length⟩

/-- Take characters up to and including the first slash. -/
def upToSlash : List Char → List Char
  | [] => []
  | c :: rest => if c = '/' then ['/'] else c :: upToSlash rest

/-- The common prefix reported for a key that has a slash below the listing
prefix. -/
def commonPrefixOf (pre k : String) : String :=
  pre ++ ⟨upToSlash (dropStrPrefixKey pre k).data⟩

/-- ListObjectsV2 semantics over the flat store: keys under the prefix in
lexicographic order; with a delimiter, keys whose remainder contains a
slash are grouped into common prefixes. -/
def listS3 (st : Store) (pre : String) (useDelim : Bool) :
    List String × List String :=
  let keys := (sortKeys (st.map Prod.fst)).filter
    (fun k => List.isPrefixOf pre.data k.data)
  if useDelim then
    (keys.filter (fun k => !strContainsSlash (dropStrPrefixKey pre k)),
     dedupFirst ((keys.filter
       (fun k => strContainsSlash (dropStrPrefixKey pre k))).map
         (commonPrefixOf pre)))
  else (keys, [])

/-- The fields of ListObjectsV2CommandOutput the source reads, with
Contents reduced to the object keys. -/
structure ListObjectsV2CommandOutput where
  Contents : List String
  CommonPrefixes : List String
  IsTruncated : Bool
  ContinuationToken : Option String
  NextContinuationToken : Option String
deriving DecidableEq

/-! ## Service operations over the single-page store client

The client below serves every listing complete in one page
(IsTruncated = false), so the truncation-recursion branch of
listObjectsAsync (source lines 544-553) is never taken by these
operations; that branch is modelled faithfully against a paging client in
listObjectsPagedAsync further down.  Each operation returns its result,
the store after the call, and the trace of commands sent. -/

/-- headObjectAsync (source lines 478-495). -/
def headObjectAsync (st : Store) (objectPath : String) :
    Option Unit × List S3Command :=
  let n := normalizePath objectPath none
  ((lookupS3 st n.path).map (fun _ => ()), [S3Command.headCmd n.path])

/-- objectExistsAsync (source lines 682-704): head the normalized key,
converting the not-found error into false. -/
def objectExistsAsync (st : Store) (objectPath : String) :
    Bool × List S3Command :=
  let n := normalizePath objectPath none
  let r := headObjectAsync st n.path
  (r.1.isSome, r.2)

/-- listObjectsAsync (source lines 518-557) against the single-page
client: normalize the prefix as a directory, use the slash delimiter when
the normalized prefix is truthy (nonempty). -/
def listObjectsAsync (st : Store) (directoryPath : Option String) :
    ListObjectsV2CommandOutput × List S3Command :=
  let n := normalizePath (directoryPath.getD "/") (some true)
  let useDelim := decide (n.path ≠ "")
  let cp := listS3 st n.path useDelim
  ({ Contents := cp.1, CommonPrefixes := cp.2, IsTruncated := false,
     ContinuationToken := none, NextContinuationToken := none },
   [S3Command.listCmd n.path (if useDelim then some "/" else none) none])

/-- directoryExistsAsync (source lines 323-353). -/
def directoryExistsAsync (st : Store) (objectPath : String) :
    Bool × List S3Command :=
  let p0 := (normalizePath objectPath (some true)).path
  let p1 := if strEndsSlash p0 then p0 else p0 ++ "/"
  let ex := objectExistsAsync st p1
  if ex.1 then (true, ex.2)
  else
    let ls := listObjectsAsync st (some p1)
    ((decide (0 < ls.1.Contents.length) || decide (0 < ls.1.CommonPrefixes.length)),
      ex.2 ++ ls.2)

/-- getObjectAsync (source lines 381-414): the store is read, never
changed; the body returned is the whole object (the range only shapes the
command sent). -/
def getObjectAsync (st : Store) (objectPath : String) (start stop : Option Int) :
    Option String × List S3Command :=
  let n := normalizePath objectPath none
  (lookupS3 st n.path, [S3Command.getCmd n.path (rangeOf start stop)])

/-- putObjectAsync (source lines 713-750); the ISO-date default body
stands in for the timestamp written when no content is given. -/
def putObjectAsync (st : Store) (objectPath : String) (content : Option String) :
    Store × List S3Command :=
  let n := normalizePath objectPath none
  let body := content.getD "1970-01-01T00:00:00.000Z"
  (insertS3 st n.path body, [S3Command.putCmd n.path body])

/-- The array branch of deleteObjectsAsync (source lines 287-313): an
empty sequence yields null with no store call, otherwise one batch delete
of the normalized keys. -/
def deleteObjectsManyBranch (st : Store) (keys : List String) :
    Option Unit × Store × List S3Command :=
  if keys.length = 0 then (none, st, [])
  else
    let ks := keys.map (fun k => (normalizePath k none).path)
    (some (), removeManyS3 st ks, [S3Command.delManyCmd ks])

/-- deleteDirectoryAsync (source lines 209-246), with fuel bounding the
recursion depth; the outer none is exhaustion of fuel or a thrown error,
some none the null early return, some (some ()) the marker deletion
output. -/
def deleteDirectoryAsync : Nat → Store → String →
    Option (Option Unit) × Store × List S3Command
  | 0, st, _ => (none, st, [])
  | fuel + 1, st, directoryPath =>
    let n := normalizePath directoryPath (some true)
    if n.directory = false then (none, st, [])
    else
      let ls := listObjectsAsync st (some n.path)
      if ls.1.Contents.length = 0 then (some none, st, ls.2)
      else
        let afterSubs := ls.1.CommonPrefixes.foldl
          (fun acc pfx =>
            match acc with
            | (none, st1, tr) => (none, st1, tr)
            | (some _, st1, tr) =>
              if pfx = "" then (some (), st1, tr)
              else
                match deleteDirectoryAsync fuel st1 pfx with
                | (none, st2, tr2) => (none, st2, tr ++ tr2)
                | (some _, st2, tr2) => (some (), st2, tr ++ tr2))
          ((some () : Option Unit), st, ls.2)
        match afterSubs with
        | (none, st1, tr) => (none, st1, tr)
        | (some _, st1, tr) =>
          let keysToDelete := ls.1.Contents.filter (fun k => decide (¬ k = ""))
          let batch := deleteObjectsManyBranch st1 keysToDelete
          (some (some ()), removeS3 batch.2.1 n.path,
            tr ++ batch.2.2 ++ [S3Command.delCmd n.path])

/-- The string case of deleteObjectAsync (source lines 255-278): a
directory-shaped path is forwarded to directory deletion, otherwise a
single-key delete is issued. -/
def deleteObjectAsyncStr (fuel : Nat) (st : Store) (objectPath : String) :
    Option (Option Unit) × Store × List S3Command :=
  let n := normalizePath objectPath none
  if n.directory then deleteDirectoryAsync fuel st n.path
  else (some (some ()), removeS3 st n.path, [S3Command.delCmd n.path])

/-- The string-or-array argument of deleteObjectsAsync. -/
inductive KeysArg where
  | one (s : String)
  | many (l : List String)

/-- The length the falsy check of deleteObjectsAsync observes. -/
def keysLen : KeysArg → Nat
  | KeysArg.one s => s.length
  | KeysArg.many l => l.length

/-- deleteObjectsAsync (source lines 287-313) over both argument shapes. -/
def deleteObjectsAsync (fuel : Nat) (st : Store) (keys : KeysArg) :
    Option (Option Unit) × Store × List S3Command :=
  if keysLen keys = 0 then (some none, st, [])
  else
    match keys with
    | KeysArg.one s => deleteObjectAsyncStr fuel st s
    | KeysArg.many l =>
      let r := deleteObjectsManyBranch st l
      (some r.1, r.2.1, r.2.2)

/-- copyObjectAsync (source lines 163-200): get the source, put the body
at the destination, and when deleteOriginal is strictly true delete the
normalized destination path.  The temporary-file cleanup of the source is
local-filesystem bookkeeping with no store effect and is not modelled. -/
def copyObjectAsync (fuel : Nat) (st : Store) (src dst : String)
    (deleteOriginal : Option Bool) : Option Unit × Store × List S3Command :=
  let ndst := normalizePath dst none
  let nsrc := normalizePath src none
  let got := getObjectAsync st nsrc.path none none
  match got.1 with
  | none => (none, st, got.2)
  | some body =>
    let put := putObjectAsync st ndst.path (some body)
    if isTrueOpt deleteOriginal then
      match deleteObjectAsyncStr fuel put.1 ndst.path with
      | (none, st3, tr3) => (none, st3, got.2 ++ put.2 ++ tr3)
      | (some _, st3, tr3) => (some (), st3, got.2 ++ put.2 ++ tr3)
    else (some (), put.1, got.2 ++ put.2)

/-- copyDirectoryAsync (source lines 116-152), fuel-bounded: list one
level, copy each object under the substituted key, recurse into each
common prefix, and when deleteOriginal is true and the source still exists
delete the source directory. -/
def copyDirectoryAsync : Nat → Store → String → String → Option Bool →
    Option (List Unit) × Store × List S3Command
  | 0, st, _, _, _ => (none, st, [])
  | fuel + 1, st, sourceDirectoryPath, destinationDirectoryPath, deleteOriginal =>
    let nsrc := normalizePath sourceDirectoryPath (some true)
    let ndst := normalizePath destinationDirectoryPath (some true)
    let ex := directoryExistsAsync st nsrc.path
    if !ex.1 then (none, st, ex.2)
    else
      let ls := listObjectsAsync st (some nsrc.path)
      let afterObjects := ls.1.Contents.foldl
        (fun acc k =>
          match acc with
          | (none, st1, tr) => (none, st1, tr)
          | (some us, st1, tr) =>
            if k = "" then (some us, st1, tr)
            else
              match copyObjectAsync fuel st1 k
                (jsReplaceOnce k nsrc.path ndst.path) deleteOriginal with
              | (none, st2, tr2) => (none, st2, tr ++ tr2)
              | (some u, st2, tr2) => (some (us ++ [u]), st2, tr ++ tr2))
        ((some [] : Option (List Unit)), st, ex.2 ++ ls.2)
      let afterSubs := ls.1.CommonPrefixes.foldl
        (fun acc pfx =>
          match acc with
          | (none, st1, tr) => (none, st1, tr)
          | (some us, st1, tr) =>
            if pfx = "" then (some us, st1, tr)
            else
              match copyDirectoryAsync fuel st1 pfx
                (jsReplaceOnce pfx nsrc.path ndst.path) deleteOriginal with
              | (none, st2, tr2) => (none, st2, tr ++ tr2)
              | (some us2, st2, tr2) => (some (us ++ us2), st2, tr ++ tr2))
        afterObjects
      match afterSubs with
      | (none, st1, tr) => (none, st1, tr)
      | (some us, st1, tr) =>
        if isTrueOpt deleteOriginal then
          let ex2 := directoryExistsAsync st1 nsrc.path
          if ex2.1 then
            match deleteDirectoryAsync fuel st1 nsrc.path with
            | (none, st2, tr2) => (none, st2, tr ++ ex2.2 ++ tr2)
            | (some _, st2, tr2) => (some us, st2, tr ++ ex2.2 ++ tr2)
          else (some us, st1, tr ++ ex2.2)
        else (some us, st1, tr)

/-- moveDirectoryAsync (source lines 613-617): copy with deleteOriginal
set to true. -/
def moveDirectoryAsync (fuel : Nat) (st : Store)
    (sourceDirectoryPath destinationDirectoryPath : String) :
    Option (List Unit) × Store × List S3Command :=
  copyDirectoryAsync fuel st sourceDirectoryPath destinationDirectoryPath
    (some true)

/-! ## The paging store client for the listing aggregator -/

/-- One page served by the paging client. -/
structure StorePage where
  contents : List String
  commonPrefixes : List String
  isTruncated : Bool
  nextToken : Option String
deriving DecidableEq

/-- The paging client: a page for each continuation token (none keys the
first page).  The ContinuationToken field of the response echoes the token
that was sent, as the AWS client does; NextContinuationToken is the cursor
for the following page. -/
def pageFor (ps : List (Option String × StorePage)) (tok : Option String) :
    Option StorePage :=
  (ps.find? (fun e => decide (e.1 = tok))).map (fun e => e.2)

/-- listObjectsAsync (source lines 518-557) against the paging client,
including the truncation branch: when the response reports IsTruncated the
source recurses passing response.ContinuationToken (the echoed request
token) and concatenates the Contents.  none means the recursion exhausted
its fuel (the call never returned) or the token matched no page. -/
def listObjectsPagedAsync (ps : List (Option String × StorePage)) :
    Nat → Option String → Option String → Option ListObjectsV2CommandOutput
  | 0, _, _ => none
  | fuel + 1, directoryPath, continuationToken =>
    let _n := normalizePath (directoryPath.getD "/") (some true)
    match pageFor ps continuationToken with
    | none => none
    | some pg =>
      let request : ListObjectsV2CommandOutput :=
        { Contents := pg.contents, CommonPrefixes := pg.commonPrefixes,
          IsTruncated := pg.isTruncated,
          ContinuationToken := continuationToken,
          NextContinuationToken := pg.nextToken }
      if request.IsTruncated = true then
        match listObjectsPagedAsync ps fuel directoryPath
          request.ContinuationToken with
        | none => none
        | some second =>
          some { request with Contents := request.Contents ++ second.Contents }
      else some request

/-- The key a nested operation ends up using: copyObjectAsync hands the
already-normalized path to getObjectAsync, putObjectAsync and
deleteObjectAsync, each of which normalizes again. -/
def renormKey (p : String) : String :=
  (normalizePath (normalizePath p none).path none).path

/-- A paging client serving two pages: the first reports truncation and
names the token of the second as NextContinuationToken. -/
def twoPageStore : List (Option String × StorePage) :=
  [(none,
    { contents := ["k1", "k2"], commonPrefixes := [], isTruncated := true,
      nextToken := some "t1" }),
   (some "t1",
    { contents := ["k3"], commonPrefixes := [], isTruncated := false,
      nextToken := none })]

/-! ## Proof infrastructure: normal forms of the posix normalizer

These two predicates are not part of the source; they characterise the
segment lists Node's normalizeString can produce and are used to prove
which inputs normalizePath maps to fixed points. -/

/-- A segment that survives resolution: nonempty, not the dot segment, and
free of separators. -/
def goodSeg (s : List Char) : Prop := s ≠ [] ∧ s ≠ ['.'] ∧ '/' ∉ s

/-- The shape of a resolved segment list: a leading run of dot-dot
segments (none at all when ascending above the root is not allowed)
followed by good non-dot-dot segments. -/
def SegsOK (allowAbove : Bool) (segs : List (List Char)) : Prop :=
  ∃ n rest, segs = List.replicate n ['.', '.'] ++ rest
    ∧ (∀ s ∈ rest, goodSeg s ∧ s ≠ ['.', '.'])
    ∧ (allowAbove = false → n = 0)

/-! ## Store lemmas -/

theorem lookupS3_cons (a b : String) (rest : Store) (k' : String) :
    lookupS3 ((a, b) :: rest) k' = if a = k' then some b else lookupS3 rest k' := by
  by_cases h : a = k' <;> simp [lookupS3, List.find?_cons, h]

theorem removeS3_cons (a b : String) (rest : Store) (k : String) :
    removeS3 ((a, b) :: rest) k
      = if a = k then removeS3 rest k else (a, b) :: removeS3 rest k := by
  by_cases h : a = k <;> simp [removeS3, List.filter_cons, h]

theorem lookupS3_removeS3_ne (st : Store) (k k' : String) (h : k' ≠ k) :
    lookupS3 (removeS3 st k) k' = lookupS3 st k' := by
  induction st with
  | nil => rfl
  | cons e rest ih =>
    rw [show e = (e.1, e.2) from rfl, removeS3_cons, lookupS3_cons]
    by_cases h1 : e.1 = k
    · have h2 : ¬ e.1 = k' := fun hk => h (hk ▸ h1)
      rw [if_pos h1, if_neg h2, ih]
    · rw [if_neg h1, lookupS3_cons]
      by_cases h2 : e.1 = k'
      · rw [if_pos h2, if_pos h2]
      · rw [if_neg h2, if_neg h2, ih]

theorem lookupS3_append_single_ne (st : Store) (k k' v : String) (h : k' ≠ k) :
    lookupS3 (st ++ [(k, v)]) k' = lookupS3 st k' := by
  induction st with
  | nil =>
    have h1 : ¬ k = k' := fun hk => h hk.symm
    simp [lookupS3, List.find?_cons, h1]
  | cons e rest ih =>
    rw [show e = (e.1, e.2) from rfl, List.cons_append, lookupS3_cons,
      lookupS3_cons]
    by_cases h2 : e.1 = k'
    · rw [if_pos h2, if_pos h2]
    · rw [if_neg h2, if_neg h2, ih]

theorem lookupS3_mapReplace_ne (st : Store) (k k' v : String) (h : k' ≠ k) :
    lookupS3 (st.map (fun e => if e.1 = k then (k, v) else e)) k'
      = lookupS3 st k' := by
  induction st with
  | nil => rfl
  | cons e rest ih =>
    rw [List.map_cons]
    by_cases h1 : e.1 = k
    · have h2 : ¬ e.1 = k' := fun hk => h (hk ▸ h1)
      have h3 : ¬ k = k' := fun hk => h hk.symm
      rw [if_pos h1, lookupS3_cons, if_neg h3,
        show e = (e.1, e.2) from rfl, lookupS3_cons, if_neg h2, ih]
    · rw [if_neg h1, show e = (e.1, e.2) from rfl, lookupS3_cons, lookupS3_cons]
      by_cases h2 : e.1 = k'
      · rw [if_pos h2, if_pos h2]
      · rw [if_neg h2, if_neg h2, ih]

theorem lookupS3_insertS3_ne (st : Store) (k k' v : String) (h : k' ≠ k) :
    lookupS3 (insertS3 st k v) k' = lookupS3 st k' := by
  unfold insertS3
  by_cases ha : st.any (fun e => decide (e.1 = k))
  · rw [if_pos ha]
    exact lookupS3_mapReplace_ne st k k' v h
  · rw [if_neg ha]
    exact lookupS3_append_single_ne st k k' v h

theorem removeManyS3_singleton (st : Store) (k : String) :
    removeManyS3 st [k] = removeS3 st k := by
  simp [removeManyS3, removeS3]

/-! ## Directory flag of a forced normalization -/

theorem normalizePath_forced_directory (p : String) :
    (normalizePath p (some true)).directory = true := by
  simp [normalizePath, normalizePathChars, npDir1]

/-! ## Helper for the stuck pagination -/

theorem listObjectsPaged_stuck (ps : List (Option String × StorePage))
    (dirPath token : Option String) (pg : StorePage)
    (hp : pageFor ps token = some pg) (ht : pg.isTruncated = true) :
    ∀ fuel, listObjectsPagedAsync ps fuel dirPath token = none := by
  intro fuel
  induction fuel with
  | zero => rfl
  | succ n ih => simp [listObjectsPagedAsync, hp, ht, ih]

/-! ## Claims -/

/-- Claim C1: for every source and destination path (with the destination
normalizing to a non-directory key and the source present in the store),
copyObjectAsync with deleteOriginal true fetches the source object, writes
the retrieved body to the destination key, then issues a delete for the
destination key, and the source entry itself is untouched whenever the two
keys differ. -/
theorem copyObject_deletes_destination (fuel : Nat) (st : Store)
    (src dst body : String)
    (hdst : (normalizePath (normalizePath dst none).path none).directory = false)
    (hsrc : lookupS3 st (renormKey src) = some body) :
    copyObjectAsync fuel st src dst (some true)
      = (some (),
         removeS3 (insertS3 st (renormKey dst) body) (renormKey dst),
         [S3Command.getCmd (renormKey src) none,
          S3Command.putCmd (renormKey dst) body,
          S3Command.delCmd (renormKey dst)])
    ∧ (renormKey src ≠ renormKey dst →
        lookupS3 (copyObjectAsync fuel st src dst (some true)).2.1 (renormKey src)
          = lookupS3 st (renormKey src)) := by
  have h1 : copyObjectAsync fuel st src dst (some true)
      = (some (),
         removeS3 (insertS3 st (renormKey dst) body) (renormKey dst),
         [S3Command.getCmd (renormKey src) none,
          S3Command.putCmd (renormKey dst) body,
          S3Command.delCmd (renormKey dst)]) := by
    unfold copyObjectAsync getObjectAsync putObjectAsync deleteObjectAsyncStr
    simp only [renormKey] at hsrc ⊢
    simp [hsrc, hdst, isTrueOpt, rangeOf, truthyNum]
  refine ⟨h1, fun hne => ?_⟩
  rw [h1]
  exact (lookupS3_removeS3_ne _ _ _ hne).trans
    (lookupS3_insertS3_ne st _ _ body hne)

/-- Witness for C1 at a concrete store. -/
theorem copyObject_deletes_destination_witness :
    copyObjectAsync 3 [("s.txt", "v")] "s.txt" "d.txt" (some true)
      = (some (),
         removeS3 (insertS3 [("s.txt", "v")] (renormKey "d.txt") "v")
           (renormKey "d.txt"),
         [S3Command.getCmd (renormKey "s.txt") none,
          S3Command.putCmd (renormKey "d.txt") "v",
          S3Command.delCmd (renormKey "d.txt")])
    ∧ lookupS3 (copyObjectAsync 3 [("s.txt", "v")] "s.txt" "d.txt" (some true)).2.1
        (renormKey "s.txt") = lookupS3 [("s.txt", "v")] (renormKey "s.txt") :=
  ⟨(copyObject_deletes_destination 3 [("s.txt", "v")] "s.txt" "d.txt" "v"
      (by decide) (by decide)).1,
   (copyObject_deletes_destination 3 [("s.txt", "v")] "s.txt" "d.txt" "v"
      (by decide) (by decide)).2 (by decide)⟩

/-- Claim C2 (the code contradicts it): on the tree with objects src/a.txt
and src/sub/b.txt, moveDirectoryAsync("src/", "dst/") leaves the store
completely empty: every copied object is immediately deleted again by
copyObjectAsync's delete-the-destination step and the source tree is then
deleted, so dst/ is NOT populated; copyDirectoryAsync without deletion on
the same tree does produce dst/a.txt and dst/sub/b.txt. -/
theorem moveDirectory_empties_both_trees :
    (moveDirectoryAsync 10 [("src/a.txt", "A"), ("src/sub/b.txt", "B")]
      "src/" "dst/").2.1 = []
    ∧ (copyDirectoryAsync 10 [("src/a.txt", "A"), ("src/sub/b.txt", "B")]
        "src/" "dst/" none).2.1
      = [("src/a.txt", "A"), ("src/sub/b.txt", "B"),
         ("dst/a.txt", "A"), ("dst/sub/b.txt", "B")] := by
  decide

/-- Claim C3 (the code contradicts it): on a two-page listing the
aggregator never terminates, because the recursion passes the echoed
request token (response.ContinuationToken) instead of the
NextContinuationToken under which the store really serves the second page;
no amount of fuel produces a result, although the second page is reachable
under the advertised next token. -/
theorem listObjects_pagination_never_completes :
    (∀ fuel, listObjectsPagedAsync twoPageStore fuel (some "pre") none = none)
    ∧ pageFor twoPageStore (some "t1")
      = some { contents := ["k3"], commonPrefixes := [], isTruncated := false,
               nextToken := none } :=
  ⟨fun fuel => listObjectsPaged_stuck twoPageStore (some "pre") none
      { contents := ["k1", "k2"], commonPrefixes := [], isTruncated := true,
        nextToken := some "t1" } (by decide) rfl fuel,
   by decide⟩

/-- Claim C4: whenever the aggregation finishes (the paged listing returns
a result), that result reports IsTruncated = false. -/
theorem listObjects_result_not_truncated (ps : List (Option String × StorePage))
    (fuel : Nat) (dirPath token : Option String)
    (out : ListObjectsV2CommandOutput)
    (h : listObjectsPagedAsync ps fuel dirPath token = some out) :
    out.IsTruncated = false := by
  cases fuel with
  | zero => exact absurd h (by simp [listObjectsPagedAsync])
  | succ n =>
    rcases hp : pageFor ps token with _ | pg
    · rw [listObjectsPagedAsync, hp] at h
      exact absurd h (by simp)
    · by_cases ht : pg.isTruncated = true
      · rw [listObjectsPaged_stuck ps dirPath token pg hp ht (n + 1)] at h
        exact absurd h (by simp)
      · have ht' : pg.isTruncated = false := by
          cases hb : pg.isTruncated
          · rfl
          · exact absurd hb ht
        simp only [listObjectsPagedAsync, hp, ht'] at h
        rw [if_neg (by simp : ¬(false = true))] at h
        injection h with h
        subst h
        rfl

/-- Witness for C4: a single-page listing returns and is not truncated. -/
theorem listObjects_result_not_truncated_witness :
    ({ Contents := ["k"], CommonPrefixes := [], IsTruncated := false,
       ContinuationToken := none, NextContinuationToken := none }
      : ListObjectsV2CommandOutput).IsTruncated = false :=
  listObjects_result_not_truncated
    [(none, { contents := ["k"], commonPrefixes := [], isTruncated := false,
              nextToken := none })]
    1 (some "p") none _ (by decide)

/-- Claim C5 (the spec is wrong about the code): normalizing the empty
string does not yield an empty key with directory flag true — without a
flag it yields key "." with directory false, and even forcing the
directory flag yields key "./", never the empty key. -/
theorem normalizePath_empty_counterexample :
    ¬ (((normalizePath "" none).path = "" ∧ (normalizePath "" none).directory = true)
       ∨ (normalizePath "" (some true)).path = "") := by
  decide

/-- Claim C5 amended: the empty string normalizes to key "." with
directory false; with the forced directory flag it normalizes to key "./"
with directory true. -/
theorem normalizePath_empty :
    normalizePath "" none = ⟨false, "."⟩
    ∧ normalizePath "" (some true) = ⟨true, "./"⟩ := by
  decide

set_option maxHeartbeats 1600000 in
/-- Claim C7: when the one-level listing deleteDirectoryAsync performs
reports zero direct object keys, the call returns null, leaves the store
untouched, and its trace (the single listing) contains no delete command,
regardless of common prefixes present at that level. -/
theorem deleteDirectory_null_on_no_direct_objects (fuel : Nat) (st : Store)
    (directoryPath : String)
    (h : (listObjectsAsync st
        (some (normalizePath directoryPath (some true)).path)).1.Contents = []) :
    deleteDirectoryAsync (fuel + 1) st directoryPath
      = (some none, st,
         (listObjectsAsync st
           (some (normalizePath directoryPath (some true)).path)).2)
    ∧ ∀ c ∈ (deleteDirectoryAsync (fuel + 1) st directoryPath).2.2,
        isDeleteCommand c = false := by
  have hmain : deleteDirectoryAsync (fuel + 1) st directoryPath
      = (some none, st,
         (listObjectsAsync st
           (some (normalizePath directoryPath (some true)).path)).2) := by
    rw [deleteDirectoryAsync]
    rw [normalizePath_forced_directory directoryPath]
    simp [h]
  refine ⟨hmain, ?_⟩
  rw [hmain]
  intro c hc
  simp only [listObjectsAsync, List.mem_singleton] at hc
  rw [hc]
  rfl

/-- Witness for C7: a store whose only key sits under a sub-prefix of the
listed directory, so the level has a common prefix but no direct keys. -/
theorem deleteDirectory_null_witness :
    deleteDirectoryAsync 5 [("a/x/y", "v")] "a/"
      = (some none, [("a/x/y", "v")], [S3Command.listCmd "a/" (some "/") none]) := by
  have h := (deleteDirectory_null_on_no_direct_objects 4 [("a/x/y", "v")] "a/"
    (by decide)).1
  exact h.trans (by decide)

/-- Claim C8 (as stated it fails): deleteObjectsAsync on the singleton
array of a directory-shaped key batch-deletes just that key, while
deleteObjectAsync on the same key recursively deletes the directory, so
the two are not identical. -/
theorem deleteObjects_singleton_counterexample :
    ¬ (deleteObjectsAsync 5 [("a/x", "v")] (KeysArg.many ["a/"])
       = deleteObjectAsyncStr 5 [("a/x", "v")] "a/") := by
  decide

/-- Claim C8 amended: the empty sequence yields null with no store call;
and for a key whose normalization is not directory-shaped the singleton
batch delete leaves the store exactly as the single-object delete does
(the same normalized key is removed), the two calls differing only in the
command shape (batch versus single delete). -/
theorem deleteObjects_empty_and_singleton (fuel : Nat) (st : Store) (k : String)
    (h : (normalizePath k none).directory = false) :
    (deleteObjectsAsync fuel st (KeysArg.many []) = (some none, st, []))
    ∧ (deleteObjectsAsync fuel st (KeysArg.many [k])).2.1
        = (deleteObjectAsyncStr fuel st k).2.1
    ∧ deleteObjectsAsync fuel st (KeysArg.many [k])
        = (some (some ()), removeS3 st (normalizePath k none).path,
           [S3Command.delManyCmd [(normalizePath k none).path]])
    ∧ deleteObjectAsyncStr fuel st k
        = (some (some ()), removeS3 st (normalizePath k none).path,
           [S3Command.delCmd (normalizePath k none).path]) := by
  have h1 : deleteObjectsAsync fuel st (KeysArg.many []) = (some none, st, []) := by
    simp [deleteObjectsAsync, keysLen]
  have h3 : deleteObjectsAsync fuel st (KeysArg.many [k])
      = (some (some ()), removeS3 st (normalizePath k none).path,
         [S3Command.delManyCmd [(normalizePath k none).path]]) := by
    simp [deleteObjectsAsync, keysLen, deleteObjectsManyBranch,
      removeManyS3_singleton]
  have h4 : deleteObjectAsyncStr fuel st k
      = (some (some ()), removeS3 st (normalizePath k none).path,
         [S3Command.delCmd (normalizePath k none).path]) := by
    simp [deleteObjectAsyncStr, h]
  exact ⟨h1, by rw [h3, h4], h3, h4⟩

/-- Witness for C8's amended statement at a concrete store and key. -/
theorem deleteObjects_empty_and_singleton_witness :
    (deleteObjectsAsync 3 [("k", "v")] (KeysArg.many []) = (some none, [("k", "v")], []))
    ∧ (deleteObjectsAsync 3 [("k", "v")] (KeysArg.many ["k"])).2.1
        = (deleteObjectAsyncStr 3 [("k", "v")] "k").2.1 :=
  ⟨(deleteObjects_empty_and_singleton 3 [("k", "v")] "k" (by decide)).1,
   (deleteObjects_empty_and_singleton 3 [("k", "v")] "k" (by decide)).2.1⟩

/-- Claim C9: generateHiddenName prepends the sentinel exactly when the
name already starts with it (doubling it), and returns any other name
unchanged — it never adds the sentinel to a name lacking it. -/
theorem generateHiddenName_only_doubles (n : String) :
    (strStartsWith n AwsSimpleStorageServiceHiddenMarker = true →
      generateHiddenName n = AwsSimpleStorageServiceHiddenMarker ++ n)
    ∧ (strStartsWith n AwsSimpleStorageServiceHiddenMarker = false →
      generateHiddenName n = n) := by
  constructor <;> intro h <;> simp [generateHiddenName, h]

/-- Witness for C9 on a prefixed and an unprefixed name. -/
theorem generateHiddenName_only_doubles_witness :
    generateHiddenName "_.a" = AwsSimpleStorageServiceHiddenMarker ++ "_.a"
    ∧ generateHiddenName "b" = "b" :=
  ⟨(generateHiddenName_only_doubles "_.a").1 (by decide),
   (generateHiddenName_only_doubles "b").2 (by decide)⟩

/-- Claim C10: the get command carries a Range exactly when start or end
is truthy (nonzero); start zero alone or with end zero sends none; start
zero with nonzero end goes through the end-only branch producing
range=0-end; nonzero start alone produces range=start with no end bound. -/
theorem getObject_range_semantics (st : Store) (p : String)
    (s e : Option Int) :
    ((getObjectAsync st p s e).2
      = [S3Command.getCmd (normalizePath p none).path (rangeOf s e)])
    ∧ (rangeOf s e = none ↔ (truthyNum s = false ∧ truthyNum e = false))
    ∧ rangeOf (some 0) none = none
    ∧ rangeOf (some 0) (some 0) = none
    ∧ (∀ ei : Int, ei ≠ 0 →
        rangeOf (some 0) (some ei) = some ("range=0-" ++ toString ei))
    ∧ (∀ si : Int, si ≠ 0 →
        rangeOf (some si) none = some ("range=" ++ toString si)) := by
  refine ⟨rfl, ?_, by decide, by decide, ?_, ?_⟩
  · cases hs : truthyNum s <;> cases he : truthyNum e <;>
      simp [rangeOf, hs, he]
  · intro ei hei
    simp [rangeOf, truthyNum, hei]
  · intro si hsi
    simp [rangeOf, truthyNum, hsi]

/-- Witness for C10 on concrete offsets. -/
theorem getObject_range_semantics_witness :
    rangeOf (some 0) (some 190) = some ("range=0-" ++ toString (190 : Int))
    ∧ rangeOf (some 7) none = some ("range=" ++ toString (7 : Int)) :=
  ⟨(getObject_range_semantics [] "k" (some 0) (some 190)).2.2.2.2.1 190 (by decide),
   (getObject_range_semantics [] "k" (some 7) none).2.2.2.2.2 7 (by decide)⟩

/-! ## Lemmas on the character-level primitives -/

theorem replCharsAux_noBS (b : Bool) (l : List Char) :
    '\\' ∉ replCharsAux b l := by
  induction l generalizing b with
  | nil => simp [replCharsAux]
  | cons c rest ih =>
    by_cases hc : c = '\\'
    · cases b
      · rw [replCharsAux, if_pos hc]
        simp only [Bool.false_eq_true, if_false]
        intro hmem
        rcases List.mem_cons.mp hmem with h | h
        · exact absurd h.symm (by decide)
        · exact ih true h
      · rw [replCharsAux, if_pos hc]
        simp only [if_true]
        exact ih true
    · rw [replCharsAux, if_neg hc]
      intro hmem
      rcases List.mem_cons.mp hmem with h | h
      · exact hc h.symm
      · exact ih false h

theorem replCharsAux_id (b : Bool) (l : List Char) (h : '\\' ∉ l) :
    replCharsAux b l = l := by
  induction l generalizing b with
  | nil => rfl
  | cons c rest ih =>
    have hc : ¬ c = '\\' := fun hx => h (hx ▸ List.mem_cons_self c rest)
    have hr : '\\' ∉ rest := fun hx => h (List.mem_cons_of_mem c hx)
    simp [replCharsAux, hc, ih false hr]

theorem trimChars_subset (l : List Char) (c : Char) (h : c ∈ trimChars l) :
    c ∈ l := by
  unfold trimChars at h
  rw [List.mem_reverse] at h
  have h1 := List.dropWhile_subset (l := (l.dropWhile jsWhitespace).reverse)
    jsWhitespace h
  rw [List.mem_reverse] at h1
  exact List.dropWhile_subset jsWhitespace h1

theorem splitSegs_ne_nil (l : List Char) : splitSegs l ≠ [] := by
  cases l with
  | nil => simp [splitSegs]
  | cons c rest =>
    by_cases hc : c = '/'
    · simp [splitSegs, hc]
    · rcases hs : splitSegs rest with _ | ⟨s, ss⟩ <;> simp [splitSegs, hc, hs]

theorem mem_splitSegs_no_slash (l : List Char) :
    ∀ s ∈ splitSegs l, '/' ∉ s := by
  induction l with
  | nil => intro s hs; simp [splitSegs] at hs; simp [hs]
  | cons c rest ih =>
    intro s hs
    by_cases hc : c = '/'
    · rw [splitSegs, if_pos hc] at hs
      rcases List.mem_cons.mp hs with h | h
      · simp [h]
      · exact ih s h
    · rw [splitSegs, if_neg hc] at hs
      rcases hsp : splitSegs rest with _ | ⟨s0, ss⟩
      · exact absurd hsp (splitSegs_ne_nil rest)
      · rw [hsp] at hs
        rcases List.mem_cons.mp hs with h | h
        · subst h
          intro hmem
          rcases List.mem_cons.mp hmem with h1 | h1
          · exact hc h1.symm
          · exact ih s0 (hsp ▸ List.mem_cons_self s0 ss) h1
        · exact ih s (hsp ▸ List.mem_cons_of_mem s0 h)

theorem mem_mem_splitSegs (l : List Char) :
    ∀ s ∈ splitSegs l, ∀ c ∈ s, c ∈ l := by
  induction l with
  | nil => intro s hs; simp [splitSegs] at hs; simp [hs]
  | cons c rest ih =>
    intro s hs d hd
    by_cases hc : c = '/'
    · rw [splitSegs, if_pos hc] at hs
      rcases List.mem_cons.mp hs with h | h
      · subst h; simp at hd
      · exact List.mem_cons_of_mem c (ih s h d hd)
    · rw [splitSegs, if_neg hc] at hs
      rcases hsp : splitSegs rest with _ | ⟨s0, ss⟩
      · exact absurd hsp (splitSegs_ne_nil rest)
      · rw [hsp] at hs
        rcases List.mem_cons.mp hs with h | h
        · subst h
          rcases List.mem_cons.mp hd with h1 | h1
          · exact h1 ▸ List.mem_cons_self c rest
          · exact List.mem_cons_of_mem c
              (ih s0 (hsp ▸ List.mem_cons_self s0 ss) d h1)
        · exact List.mem_cons_of_mem c
            (ih s (hsp ▸ List.mem_cons_of_mem s0 h) d hd)

theorem splitSegs_append (s m : List Char) (hs : '/' ∉ s) (h : List Char)
    (t : List (List Char)) (hm : splitSegs m = h :: t) :
    splitSegs (s ++ m) = (s ++ h) :: t := by
  induction s with
  | nil => simpa using hm
  | cons c cs ih =>
    have hc : ¬ c = '/' := fun hx => hs (hx ▸ List.mem_cons_self c cs)
    have hcs : '/' ∉ cs := fun hx => hs (List.mem_cons_of_mem c hx)
    rw [List.cons_append, splitSegs, if_neg hc, ih hcs]
    rfl

theorem splitSegs_no_slash_id (s : List Char) (hs : '/' ∉ s) :
    splitSegs s = [s] := by
  have h := splitSegs_append s [] hs [] [] rfl
  simpa using h

theorem splitSegs_concat_slash (l : List Char) :
    splitSegs (l ++ ['/']) = splitSegs l ++ [[]] := by
  induction l with
  | nil => rfl
  | cons c rest ih =>
    by_cases hc : c = '/'
    · rw [List.cons_append, splitSegs, if_pos hc, ih, splitSegs, if_pos hc,
        List.cons_append]
    · rw [List.cons_append, splitSegs, if_neg hc, ih]
      rcases hsp : splitSegs rest with _ | ⟨s0, ss⟩
      · exact absurd hsp (splitSegs_ne_nil rest)
      · rw [splitSegs, if_neg hc, hsp, List.cons_append, List.cons_append]

theorem joinSegs_cons_cons (s s2 : List Char) (rest : List (List Char)) :
    joinSegs (s :: s2 :: rest) = s ++ '/' :: joinSegs (s2 :: rest) := rfl

theorem splitSegs_joinSegs (segs : List (List Char))
    (h : ∀ s ∈ segs, '/' ∉ s) (hne : segs ≠ []) :
    splitSegs (joinSegs segs) = segs := by
  induction segs with
  | nil => exact absurd rfl hne
  | cons s rest ih =>
    cases rest with
    | nil =>
      exact splitSegs_no_slash_id s (h s (List.mem_cons_self s []))
    | cons s2 rest2 =>
      have hs : '/' ∉ s := h s (List.mem_cons_self s _)
      have hrest : ∀ x ∈ s2 :: rest2, '/' ∉ x :=
        fun x hx => h x (List.mem_cons_of_mem s hx)
      have hrec := ih hrest (by simp)
      rw [joinSegs_cons_cons]
      have hstep : splitSegs ('/' :: joinSegs (s2 :: rest2))
          = [] :: splitSegs (joinSegs (s2 :: rest2)) := by
        rw [splitSegs, if_pos rfl]
      rw [splitSegs_append s ('/' :: joinSegs (s2 :: rest2)) hs []
        (splitSegs (joinSegs (s2 :: rest2))) hstep, hrec, List.append_nil]

theorem joinSegs_ne_nil (segs : List (List Char)) (hne : segs ≠ [])
    (h : ∀ s ∈ segs, s ≠ []) : joinSegs segs ≠ [] := by
  cases segs with
  | nil => exact absurd rfl hne
  | cons s rest =>
    cases rest with
    | nil => exact h s (List.mem_cons_self s [])
    | cons s2 rest2 =>
      rw [joinSegs_cons_cons]
      intro hx
      rcases List.append_eq_nil.mp hx with ⟨_, h2⟩
      exact List.cons_ne_nil _ _ h2

theorem startsSlash_append (s x : List Char) (h : s ≠ []) :
    startsSlash (s ++ x) = startsSlash s := by
  cases s with
  | nil => exact absurd rfl h
  | cons c cs => rfl

theorem startsSlash_false_of_no_slash (s : List Char) (h : '/' ∉ s) :
    startsSlash s = false := by
  cases s with
  | nil => rfl
  | cons c cs =>
    have hc : ¬ c = '/' := fun hx => h (hx ▸ List.mem_cons_self c cs)
    simp [startsSlash, hc]

theorem startsSlash_joinSegs (segs : List (List Char)) (hne : segs ≠ [])
    (h : ∀ s ∈ segs, s ≠ [] ∧ '/' ∉ s) :
    startsSlash (joinSegs segs) = false := by
  cases segs with
  | nil => exact absurd rfl hne
  | cons s rest =>
    have hs := h s (List.mem_cons_self s rest)
    cases rest with
    | nil => exact startsSlash_false_of_no_slash s hs.2
    | cons s2 rest2 =>
      rw [joinSegs_cons_cons, startsSlash_append s _ hs.1]
      exact startsSlash_false_of_no_slash s hs.2

theorem endsSlash_append (a b_ : List Char) (h : b_ ≠ []) :
    endsSlash (a ++ b_) = endsSlash b_ := by
  unfold endsSlash
  rw [List.getLast?_append_of_ne_nil a h]

theorem endsSlash_no_slash (s : List Char) (h : '/' ∉ s) :
    endsSlash s = false := by
  unfold endsSlash
  rcases hg : s.getLast? with _ | a
  · rfl
  · have ha : a ∈ s := by
      obtain ⟨hne, rfl⟩ := List.mem_getLast?_eq_getLast (by rw [hg]; rfl)
      exact List.getLast_mem hne
    have : ¬ a = '/' := fun hx => h (hx ▸ ha)
    simpa using this

theorem endsSlash_joinSegs (segs : List (List Char)) (hne : segs ≠ [])
    (h : ∀ s ∈ segs, s ≠ [] ∧ '/' ∉ s) :
    endsSlash (joinSegs segs) = false := by
  induction segs with
  | nil => exact absurd rfl hne
  | cons s rest ih =>
    cases rest with
    | nil => exact endsSlash_no_slash s (h s (List.mem_cons_self s [])).2
    | cons s2 rest2 =>
      have hrest : ∀ x ∈ s2 :: rest2, x ≠ [] ∧ '/' ∉ x :=
        fun x hx => h x (List.mem_cons_of_mem s hx)
      have hjoin : joinSegs (s2 :: rest2) ≠ [] :=
        joinSegs_ne_nil _ (by simp) (fun x hx => (hrest x hx).1)
      rw [joinSegs_cons_cons, endsSlash_append s _ (by simp)]
      have h2 : endsSlash ('/' :: joinSegs (s2 :: rest2))
          = endsSlash (joinSegs (s2 :: rest2)) := by
        have h3 := endsSlash_append ['/'] (joinSegs (s2 :: rest2)) hjoin
        simpa using h3
      rw [h2]
      exact ih (by simp) hrest

theorem endsSlash_concat_slash (l : List Char) :
    endsSlash (l ++ ['/']) = true := by
  unfold endsSlash
  rw [List.getLast?_concat]
  simp

theorem mem_joinSegs (segs : List (List Char)) (c : Char)
    (h : c ∈ joinSegs segs) : c = '/' ∨ ∃ s ∈ segs, c ∈ s := by
  induction segs with
  | nil => simp [joinSegs] at h
  | cons s rest ih =>
    cases rest with
    | nil =>
      exact Or.inr ⟨s, List.mem_cons_self s [], h⟩
    | cons s2 rest2 =>
      rw [joinSegs_cons_cons] at h
      rcases List.mem_append.mp h with h1 | h1
      · exact Or.inr ⟨s, List.mem_cons_self s _, h1⟩
      · rcases List.mem_cons.mp h1 with h2 | h2
        · exact Or.inl h2
        · rcases ih h2 with h3 | ⟨x, hx, hcx⟩
          · exact Or.inl h3
          · exact Or.inr ⟨x, List.mem_cons_of_mem s hx, hcx⟩

/-! ## Lemmas on segment resolution -/

theorem resolveStep_nil (allow : Bool) (acc : List (List Char)) :
    resolveStep allow acc [] = acc := by
  simp [resolveStep]

theorem resolveStep_push (allow : Bool) (acc : List (List Char))
    (s : List Char) (h1 : s ≠ []) (h2 : s ≠ ['.']) (h3 : s ≠ ['.', '.']) :
    resolveStep allow acc s = acc ++ [s] := by
  rw [resolveStep, if_neg (by simp [h1, h2]), if_neg h3]

theorem foldl_resolveStep_push (allow : Bool) (rest : List (List Char))
    (h : ∀ s ∈ rest, goodSeg s ∧ s ≠ ['.', '.']) (acc : List (List Char)) :
    List.foldl (resolveStep allow) acc rest = acc ++ rest := by
  induction rest generalizing acc with
  | nil => simp
  | cons s rs ih =>
    have hs := h s (List.mem_cons_self s rs)
    rw [List.foldl_cons, resolveStep_push allow acc s hs.1.1 hs.1.2.1 hs.2,
      ih (fun x hx => h x (List.mem_cons_of_mem s hx)), List.append_assoc]
    rfl

theorem replicate_dd_getLast? (m : Nat) :
    (List.replicate (m + 1) (['.', '.'] : List Char)).getLast?
      = some ['.', '.'] := by
  rw [List.getLast?_replicate]
  simp

theorem resolveStep_dots (m : Nat) :
    resolveStep true (List.replicate m (['.', '.'] : List Char)) ['.', '.']
      = List.replicate (m + 1) ['.', '.'] := by
  cases m with
  | zero => simp [resolveStep]
  | succ m0 =>
    rw [resolveStep, if_neg (by decide), if_pos rfl]
    simp only [replicate_dd_getLast?, if_pos rfl]
    rw [← List.replicate_succ' (m0 + 1)]
    simp

theorem foldl_resolveStep_dots (n : Nat) : ∀ m : Nat,
    List.foldl (resolveStep true) (List.replicate m ['.', '.'])
      (List.replicate n (['.', '.'] : List Char))
      = List.replicate (m + n) ['.', '.'] := by
  induction n with
  | zero => intro m; simp
  | succ k ih =>
    intro m
    rw [List.replicate_succ, List.foldl_cons, resolveStep_dots m, ih (m + 1)]
    congr 1
    omega

theorem SegsOK_nil (allow : Bool) : SegsOK allow [] :=
  ⟨0, [], by simp, by simp, fun _ => rfl⟩

theorem resolveSegs_fixed (allow : Bool) (segs : List (List Char))
    (h : SegsOK allow segs) : resolveSegs allow segs = segs := by
  obtain ⟨n, rest, rfl, hrest, hn⟩ := h
  unfold resolveSegs
  rw [List.foldl_append]
  cases allow
  · rw [hn rfl]
    simpa using foldl_resolveStep_push false rest hrest []
  · have h0 : (List.foldl (resolveStep true) []
        (List.replicate n (['.', '.'] : List Char)))
        = List.replicate n ['.', '.'] := by
      have := foldl_resolveStep_dots n 0
      simpa using this
    rw [h0, foldl_resolveStep_push true rest hrest]

theorem SegsOK_weaken (segs : List (List Char)) (h : SegsOK false segs) :
    SegsOK true segs := by
  obtain ⟨n, rest, h1, h2, h3⟩ := h
  exact ⟨n, rest, h1, h2, fun hx => nomatch hx⟩

theorem SegsOK_elems (allow : Bool) (segs : List (List Char))
    (h : SegsOK allow segs) : ∀ s ∈ segs, s ≠ [] ∧ '/' ∉ s := by
  obtain ⟨n, rest, rfl, hrest, -⟩ := h
  intro s hs
  rcases List.mem_append.mp hs with h1 | h1
  · have h2 := List.eq_of_mem_replicate h1
    subst h2
    exact ⟨by decide, by decide⟩
  · exact ⟨(hrest s h1).1.1, (hrest s h1).1.2.2⟩

theorem mem_resolveStep (allow : Bool) (acc : List (List Char))
    (seg s : List Char) (h : s ∈ resolveStep allow acc seg) :
    s ∈ acc ∨ s = seg := by
  unfold resolveStep at h
  by_cases h1 : seg = [] ∨ seg = ['.']
  · rw [if_pos h1] at h
    exact Or.inl h
  · rw [if_neg h1] at h
    by_cases h2 : seg = ['.', '.']
    · rw [if_pos h2] at h
      rcases hg : acc.getLast? with _ | last
      · simp only [hg] at h
        cases allow
        · simp at h
        · simp at h
          exact Or.inr h
      · simp only [hg] at h
        by_cases h3 : last = ['.', '.']
        · rw [if_pos h3] at h
          cases allow
          · simp at h
            exact Or.inl h
          · simp at h
            exact h
        · rw [if_neg h3] at h
          exact Or.inl (List.dropLast_subset acc h)
    · rw [if_neg h2] at h
      rcases List.mem_append.mp h with h4 | h4
      · exact Or.inl h4
      · exact Or.inr (List.mem_singleton.mp h4)

theorem mem_foldl_resolveStep (allow : Bool) (segs : List (List Char)) :
    ∀ acc s, s ∈ List.foldl (resolveStep allow) acc segs →
      s ∈ acc ∨ s ∈ segs := by
  induction segs with
  | nil => intro acc s h; exact Or.inl (by simpa using h)
  | cons x xs ih =>
    intro acc s h
    rw [List.foldl_cons] at h
    rcases ih (resolveStep allow acc x) s h with h1 | h1
    · rcases mem_resolveStep allow acc x s h1 with h2 | h2
      · exact Or.inl h2
      · exact Or.inr (h2 ▸ List.mem_cons_self x xs)
    · exact Or.inr (List.mem_cons_of_mem x h1)

theorem mem_resolveSegs (allow : Bool) (segs : List (List Char))
    (s : List Char) (h : s ∈ resolveSegs allow segs) : s ∈ segs := by
  rcases mem_foldl_resolveStep allow segs [] s h with h1 | h1
  · simp at h1
  · exact h1

theorem resolveStep_SegsOK (allow : Bool) (acc : List (List Char))
    (seg : List Char) (hacc : SegsOK allow acc) (hseg : '/' ∉ seg) :
    SegsOK allow (resolveStep allow acc seg) := by
  by_cases h1 : seg = [] ∨ seg = ['.']
  · rw [resolveStep, if_pos h1]
    exact hacc
  · by_cases h2 : seg = ['.', '.']
    · rw [resolveStep, if_neg h1, if_pos h2]
      obtain ⟨n, rest, rfl, hrest, hn⟩ := hacc
      rcases hg : (List.replicate n (['.', '.'] : List Char) ++ rest).getLast?
        with _ | last
      · simp only [hg]
        cases allow
        · exact SegsOK_nil false
        · exact ⟨1, [], by simp [h2], by simp, fun hx => nomatch hx⟩
      · simp only [hg]
        by_cases h3 : last = ['.', '.']
        · rw [if_pos h3]
          have hrestnil : rest = [] := by
            by_contra hrne
            rw [List.getLast?_append_of_ne_nil _ hrne] at hg
            have hlast : last ∈ rest := by
              obtain ⟨hne, rfl⟩ := List.mem_getLast?_eq_getLast
                (by rw [hg]; rfl)
              exact List.getLast_mem hne
            exact (hrest last hlast).2 h3
          subst hrestnil
          cases allow
          · rw [hn rfl] at hg
            simp at hg
          · refine ⟨n + 1, [], ?_, by simp, fun hx => nomatch hx⟩
            rw [h2]
            simp only [List.append_nil]
            rw [← List.replicate_succ' n]
            simp
        · rw [if_neg h3]
          have hrne : rest ≠ [] := by
            intro hre
            subst hre
            rw [List.append_nil] at hg
            cases n with
            | zero => simp at hg
            | succ m =>
              rw [replicate_dd_getLast?] at hg
              exact h3 (Option.some.injEq _ _ ▸ hg.symm)
          rw [List.dropLast_append_of_ne_nil _ hrne]
          exact ⟨n, rest.dropLast, rfl,
            fun s hs => hrest s (List.dropLast_subset rest hs), hn⟩
    · rw [resolveStep, if_neg h1, if_neg h2]
      rcases not_or.mp h1 with ⟨hne, hdot⟩
      obtain ⟨n, rest, rfl, hrest, hn⟩ := hacc
      refine ⟨n, rest ++ [seg], by rw [List.append_assoc], ?_, hn⟩
      intro s hs
      rcases List.mem_append.mp hs with h4 | h4
      · exact hrest s h4
      · rw [List.mem_singleton.mp h4]
        exact ⟨⟨hne, hdot, hseg⟩, h2⟩

theorem foldl_resolveStep_SegsOK (allow : Bool) (segs : List (List Char))
    (h : ∀ s ∈ segs, '/' ∉ s) :
    ∀ acc, SegsOK allow acc →
      SegsOK allow (List.foldl (resolveStep allow) acc segs) := by
  induction segs with
  | nil => intro acc hacc; simpa using hacc
  | cons x xs ih =>
    intro acc hacc
    rw [List.foldl_cons]
    exact ih (fun s hs => h s (List.mem_cons_of_mem x hs))
      (resolveStep allow acc x)
      (resolveStep_SegsOK allow acc x hacc (h x (List.mem_cons_self x xs)))

theorem resolveSegs_SegsOK (allow : Bool) (segs : List (List Char))
    (h : ∀ s ∈ segs, '/' ∉ s) : SegsOK allow (resolveSegs allow segs) :=
  foldl_resolveStep_SegsOK allow segs h [] (SegsOK_nil allow)

/-! ## Lemmas on the posix normalizer -/

theorem splitSegs_cons_slash (l : List Char) :
    splitSegs ('/' :: l) = [] :: splitSegs l := by
  rw [splitSegs, if_pos rfl]

theorem renderSegs_of_ne (abs trail : Bool) (segs : List (List Char))
    (hne : segs ≠ []) :
    renderSegs abs segs trail
      = (if abs then ['/'] else []) ++ joinSegs segs
        ++ (if trail then ['/'] else []) := by
  rw [renderSegs, if_neg hne]

theorem splitSegs_renderSegs (abs trail : Bool) (segs : List (List Char))
    (hne : segs ≠ []) (hgood : ∀ s ∈ segs, s ≠ [] ∧ '/' ∉ s) :
    splitSegs (renderSegs abs segs trail)
      = (if abs then [([] : List Char)] else []) ++ segs
        ++ (if trail then [([] : List Char)] else []) := by
  have hP : splitSegs (joinSegs segs) = segs :=
    splitSegs_joinSegs segs (fun s hs => (hgood s hs).2) hne
  rw [renderSegs_of_ne abs trail segs hne]
  cases abs <;> cases trail <;>
    simp [splitSegs_cons_slash, splitSegs_concat_slash, hP]

theorem resolveSegs_cons_nil (allow : Bool) (segs : List (List Char)) :
    resolveSegs allow ([] :: segs) = resolveSegs allow segs := by
  unfold resolveSegs
  rw [List.foldl_cons, resolveStep_nil]

theorem resolveSegs_concat_nil (allow : Bool) (segs : List (List Char)) :
    resolveSegs allow (segs ++ [[]]) = resolveSegs allow segs := by
  unfold resolveSegs
  rw [List.foldl_append]
  simp [resolveStep_nil]

theorem startsSlash_renderSegs (abs trail : Bool) (segs : List (List Char))
    (hne : segs ≠ []) (hgood : ∀ s ∈ segs, s ≠ [] ∧ '/' ∉ s) :
    startsSlash (renderSegs abs segs trail) = abs := by
  have hPne : joinSegs segs ≠ [] :=
    joinSegs_ne_nil segs hne (fun s hs => (hgood s hs).1)
  have hPs : startsSlash (joinSegs segs) = false :=
    startsSlash_joinSegs segs hne hgood
  rw [renderSegs_of_ne abs trail segs hne]
  cases abs <;> cases trail
  · show startsSlash (joinSegs segs ++ []) = false
    rw [List.append_nil]
    exact hPs
  · show startsSlash (joinSegs segs ++ ['/']) = false
    rw [startsSlash_append _ _ hPne]
    exact hPs
  · rfl
  · rfl

theorem endsSlash_renderSegs (abs trail : Bool) (segs : List (List Char))
    (hne : segs ≠ []) (hgood : ∀ s ∈ segs, s ≠ [] ∧ '/' ∉ s) :
    endsSlash (renderSegs abs segs trail) = trail := by
  have hPne : joinSegs segs ≠ [] :=
    joinSegs_ne_nil segs hne (fun s hs => (hgood s hs).1)
  have hPe : endsSlash (joinSegs segs) = false :=
    endsSlash_joinSegs segs hne hgood
  rw [renderSegs_of_ne abs trail segs hne]
  cases abs <;> cases trail
  · show endsSlash (joinSegs segs ++ []) = false
    rw [List.append_nil]
    exact hPe
  · show endsSlash (joinSegs segs ++ ['/']) = true
    exact endsSlash_concat_slash _
  · show endsSlash (['/'] ++ (joinSegs segs ++ [])) = false
    rw [List.append_nil, endsSlash_append _ _ hPne]
    exact hPe
  · show endsSlash ((['/'] ++ joinSegs segs) ++ ['/']) = true
    exact endsSlash_concat_slash _

theorem renderSegs_ne_nil (abs trail : Bool) (segs : List (List Char))
    (hne : segs ≠ []) (hgood : ∀ s ∈ segs, s ≠ [] ∧ '/' ∉ s) :
    renderSegs abs segs trail ≠ [] := by
  have hPne : joinSegs segs ≠ [] :=
    joinSegs_ne_nil segs hne (fun s hs => (hgood s hs).1)
  rw [renderSegs_of_ne abs trail segs hne]
  cases abs <;> cases trail <;> simp [hPne]

theorem posix_render_fixed (abs trail : Bool) (segs : List (List Char))
    (hok : SegsOK (!abs) segs) (hne : segs ≠ []) :
    posixNormChars (renderSegs abs segs trail) = renderSegs abs segs trail := by
  have hgood := SegsOK_elems (!abs) segs hok
  have hone := renderSegs_ne_nil abs trail segs hne hgood
  rw [posixNormChars, if_neg hone,
    startsSlash_renderSegs abs trail segs hne hgood,
    endsSlash_renderSegs abs trail segs hne hgood,
    splitSegs_renderSegs abs trail segs hne hgood]
  have hres : resolveSegs (!abs)
      ((if abs then [([] : List Char)] else []) ++ segs
        ++ (if trail then [([] : List Char)] else [])) = segs := by
    cases abs <;> cases trail
    · show resolveSegs true (segs ++ []) = segs
      rw [List.append_nil]
      exact resolveSegs_fixed _ segs hok
    · show resolveSegs true (segs ++ [[]]) = segs
      rw [resolveSegs_concat_nil]
      exact resolveSegs_fixed _ segs hok
    · show resolveSegs false ([] :: (segs ++ [])) = segs
      rw [resolveSegs_cons_nil, List.append_nil]
      exact resolveSegs_fixed _ segs hok
    · show resolveSegs false ([] :: (segs ++ [[]])) = segs
      rw [resolveSegs_cons_nil, resolveSegs_concat_nil]
      exact resolveSegs_fixed _ segs hok
  rw [hres]

theorem posix_idem (l : List Char) :
    posixNormChars (posixNormChars l) = posixNormChars l := by
  by_cases hl : l = []
  · subst hl
    decide
  · have hu : posixNormChars l
        = renderSegs (startsSlash l)
            (resolveSegs (!startsSlash l) (splitSegs l)) (endsSlash l) := by
      rw [posixNormChars, if_neg hl]
    rw [hu]
    rcases hsegs : resolveSegs (!startsSlash l) (splitSegs l) with _ | ⟨s0, ss⟩
    · rw [renderSegs, if_pos rfl]
      cases hA : startsSlash l <;> cases hT : endsSlash l <;> decide
    · have hok : SegsOK (!startsSlash l) (s0 :: ss) :=
        hsegs ▸ resolveSegs_SegsOK _ _ (mem_splitSegs_no_slash l)
      exact posix_render_fixed (startsSlash l) (endsSlash l) (s0 :: ss) hok
        (by simp)

theorem posix_strip_fixed (l : List Char)
    (h1 : startsSlash (posixNormChars l) = true)
    (h2 : (posixNormChars l).drop 1 ≠ []) :
    posixNormChars ((posixNormChars l).drop 1)
      = (posixNormChars l).drop 1 := by
  by_cases hl : l = []
  · subst hl
    revert h1
    decide
  · have hu : posixNormChars l
        = renderSegs (startsSlash l)
            (resolveSegs (!startsSlash l) (splitSegs l)) (endsSlash l) := by
      rw [posixNormChars, if_neg hl]
    rw [hu] at h1 h2 ⊢
    rcases hsegs : resolveSegs (!startsSlash l) (splitSegs l) with _ | ⟨s0, ss⟩
    · rw [hsegs] at h1 h2
      rw [renderSegs, if_pos rfl] at h1 h2 ⊢
      cases hA : startsSlash l
      · rw [hA] at h1
        cases hT : endsSlash l <;> rw [hT] at h1
        · exact absurd h1 (by decide)
        · exact absurd h1 (by decide)
      · rw [hA] at h2
        exact absurd rfl h2
    · have hok : SegsOK (!startsSlash l) (s0 :: ss) :=
        hsegs ▸ resolveSegs_SegsOK _ _ (mem_splitSegs_no_slash l)
      have hgood := SegsOK_elems _ _ hok
      rw [hsegs] at h1 h2
      rw [startsSlash_renderSegs _ _ _ (by simp) hgood] at h1
      rw [h1] at hok h2 ⊢
      have hok' : SegsOK false (s0 :: ss) := by simpa using hok
      have hdrop : (renderSegs true (s0 :: ss) (endsSlash l)).drop 1
          = renderSegs false (s0 :: ss) (endsSlash l) := by
        rw [renderSegs_of_ne true _ _ (by simp),
          renderSegs_of_ne false _ _ (by simp)]
        rfl
      rw [hdrop]
      exact posix_render_fixed false (endsSlash l) (s0 :: ss)
        (SegsOK_weaken _ hok') (by simp)

theorem posix_trailing (l : List Char) (hne : l ≠ [])
    (h : endsSlash l = true) : endsSlash (posixNormChars l) = true := by
  rw [posixNormChars, if_neg hne, h]
  rcases hsegs : resolveSegs (!startsSlash l) (splitSegs l) with _ | ⟨s0, ss⟩
  · rw [renderSegs, if_pos rfl]
    cases startsSlash l <;> decide
  · rw [renderSegs_of_ne _ _ _ (by simp)]
    show endsSlash
      (((if startsSlash l = true then ['/'] else []) ++ joinSegs (s0 :: ss))
        ++ ['/']) = true
    exact endsSlash_concat_slash _

theorem posix_not_abs (l : List Char) (h : startsSlash l = false) :
    startsSlash (posixNormChars l) = false := by
  by_cases hl : l = []
  · subst hl
    decide
  · rw [posixNormChars, if_neg hl]
    rcases hsegs : resolveSegs (!startsSlash l) (splitSegs l) with _ | ⟨s0, ss⟩
    · rw [renderSegs, if_pos rfl, h]
      cases endsSlash l <;> decide
    · have hok : SegsOK (!startsSlash l) (s0 :: ss) :=
        hsegs ▸ resolveSegs_SegsOK _ _ (mem_splitSegs_no_slash l)
      have hgood := SegsOK_elems _ _ hok
      rw [startsSlash_renderSegs _ _ _ (by simp) hgood, h]

theorem posix_no_dslash (l : List Char)
    (h : startsSlash (posixNormChars l) = true) :
    startsSlash ((posixNormChars l).drop 1) = false := by
  by_cases hl : l = []
  · subst hl
    revert h
    decide
  · have hu : posixNormChars l
        = renderSegs (startsSlash l)
            (resolveSegs (!startsSlash l) (splitSegs l)) (endsSlash l) := by
      rw [posixNormChars, if_neg hl]
    rw [hu] at h ⊢
    rcases hsegs : resolveSegs (!startsSlash l) (splitSegs l) with _ | ⟨s0, ss⟩
    · rw [hsegs] at h
      rw [renderSegs, if_pos rfl] at h ⊢
      cases hA : startsSlash l
      · rw [hA] at h
        cases hT : endsSlash l <;> rw [hT] at h
        · exact absurd h (by decide)
        · exact absurd h (by decide)
      · rfl
    · have hok : SegsOK (!startsSlash l) (s0 :: ss) :=
        hsegs ▸ resolveSegs_SegsOK _ _ (mem_splitSegs_no_slash l)
      have hgood := SegsOK_elems _ _ hok
      have hPne : joinSegs (s0 :: ss) ≠ [] :=
        joinSegs_ne_nil _ (by simp) (fun s hs => (hgood s hs).1)
      rw [hsegs] at h
      rw [startsSlash_renderSegs _ _ _ (by simp) hgood] at h
      rw [h, renderSegs_of_ne true _ _ (by simp)]
      cases hT : endsSlash l
      · show startsSlash ((joinSegs (s0 :: ss) ++ [])) = false
        rw [List.append_nil]
        exact startsSlash_joinSegs _ (by simp) hgood
      · show startsSlash ((joinSegs (s0 :: ss) ++ ['/'])) = false
        rw [startsSlash_append _ _ hPne]
        exact startsSlash_joinSegs _ (by simp) hgood

/-! ## Lemmas on the stages of normalizePath -/

theorem replChars_noBS (l : List Char) : '\\' ∉ replChars l :=
  replCharsAux_noBS false l

theorem replChars_id (l : List Char) (h : '\\' ∉ l) : replChars l = l :=
  replCharsAux_id false l h

theorem trimChars_noBS (l : List Char) (h : '\\' ∉ l) : '\\' ∉ trimChars l :=
  fun hx => h (trimChars_subset l '\\' hx)

theorem mem_renderSegs (abs trail : Bool) (segs : List (List Char))
    (c : Char) (h : c ∈ renderSegs abs segs trail) :
    c = '/' ∨ c = '.' ∨ ∃ s ∈ segs, c ∈ s := by
  unfold renderSegs at h
  by_cases hne : segs = []
  · rw [if_pos hne] at h
    cases abs
    · cases trail
      · simp at h
        exact Or.inr (Or.inl h)
      · simp at h
        rcases h with h | h
        · exact Or.inr (Or.inl h)
        · exact Or.inl h
    · simp at h
      exact Or.inl h
  · rw [if_neg hne] at h
    rcases List.mem_append.mp h with h1 | h1
    · rcases List.mem_append.mp h1 with h2 | h2
      · cases abs
        · simp at h2
        · simp at h2
          exact Or.inl h2
      · rcases mem_joinSegs segs c h2 with h3 | ⟨s, hs, hcs⟩
        · exact Or.inl h3
        · exact Or.inr (Or.inr ⟨s, hs, hcs⟩)
    · cases trail
      · simp at h1
      · simp at h1
        exact Or.inl h1

theorem posixNormChars_noBS (l : List Char) (h : '\\' ∉ l) :
    '\\' ∉ posixNormChars l := by
  by_cases hl : l = []
  · subst hl
    decide
  · rw [posixNormChars, if_neg hl]
    intro hmem
    rcases mem_renderSegs _ _ _ _ hmem with h1 | h1 | ⟨s, hs, hcs⟩
    · exact absurd h1 (by decide)
    · exact absurd h1 (by decide)
    · exact h (mem_mem_splitSegs l s (mem_resolveSegs _ _ s hs) '\\' hcs)

theorem npPath1_posix (p : List Char) :
    npPath1 p = posixNormChars (trimChars (replChars p)) :=
  replChars_id _ (posixNormChars_noBS _ (trimChars_noBS _ (replChars_noBS p)))

theorem npPath1_noBS (p : List Char) : '\\' ∉ npPath1 p :=
  replChars_noBS _

theorem npPath2_noBS (p : List Char) : '\\' ∉ npPath2 p := by
  unfold npPath2
  by_cases hS : startsSlash (npPath1 p) = true
  · rw [if_pos hS]
    intro hx
    exact npPath1_noBS p (List.drop_subset 1 _ hx)
  · rw [if_neg hS]
    exact npPath1_noBS p

theorem npPath3_noBS (p : List Char) (d : Option Bool) : '\\' ∉ npPath3 p d := by
  unfold npPath3
  by_cases hC : ((isTrueOpt d || npDir1 p d || endsSlash p)
      && !endsSlash (npPath2 p)) = true
  · rw [if_pos hC]
    exact replChars_noBS _
  · rw [if_neg hC]
    exact npPath2_noBS p

theorem npPath2_not_abs (p : List Char) : startsSlash (npPath2 p) = false := by
  unfold npPath2
  by_cases hS : startsSlash (npPath1 p) = true
  · rw [if_pos hS]
    rw [npPath1_posix] at hS ⊢
    exact posix_no_dslash _ hS
  · rw [if_neg hS]
    cases hb : startsSlash (npPath1 p)
    · rfl
    · exact absurd hb hS

theorem npPath3_starts (p : List Char) (d : Option Bool)
    (h : startsSlash (npPath3 p d) = true) : npPath3 p d = ['/'] := by
  unfold npPath3 at h ⊢
  by_cases hC : ((isTrueOpt d || npDir1 p d || endsSlash p)
      && !endsSlash (npPath2 p)) = true
  · rw [if_pos hC] at h ⊢
    rw [replChars_id _ (posixNormChars_noBS _ (fun hx =>
      (List.mem_append.mp hx).elim (npPath2_noBS p)
        (fun hy => absurd (List.mem_singleton.mp hy) (by decide))))] at h ⊢
    by_cases hP2 : npPath2 p = []
    · rw [hP2]
      decide
    · have hsa : startsSlash (npPath2 p ++ ['/']) = false := by
        rw [startsSlash_append _ _ hP2]
        exact npPath2_not_abs p
      rw [posix_not_abs _ hsa] at h
      exact absurd h (by decide)
  · rw [if_neg hC] at h
    rw [npPath2_not_abs p] at h
    exact absurd h (by decide)

theorem npPath3_fixed (p : List Char) (d : Option Bool)
    (h : npPath3 p d ≠ []) :
    posixNormChars (npPath3 p d) = npPath3 p d := by
  unfold npPath3 at h ⊢
  by_cases hC : ((isTrueOpt d || npDir1 p d || endsSlash p)
      && !endsSlash (npPath2 p)) = true
  · rw [if_pos hC]
    rw [replChars_id _ (posixNormChars_noBS _ (fun hx =>
      (List.mem_append.mp hx).elim (npPath2_noBS p)
        (fun hy => absurd (List.mem_singleton.mp hy) (by decide))))]
    exact posix_idem _
  · rw [if_neg hC] at h ⊢
    unfold npPath2 at h ⊢
    by_cases hS : startsSlash (npPath1 p) = true
    · rw [if_pos hS] at h ⊢
      rw [npPath1_posix] at hS h ⊢
      exact posix_strip_fixed _ hS h
    · rw [if_neg hS] at h ⊢
      rw [npPath1_posix]
      exact posix_idem _

theorem npPath3_trailing (p : List Char) (d : Option Bool)
    (h : npDir1 p d = true) : endsSlash (npPath3 p d) = true := by
  unfold npPath3
  by_cases hE : endsSlash (npPath2 p) = true
  · have hC : ((isTrueOpt d || npDir1 p d || endsSlash p)
        && !endsSlash (npPath2 p)) = false := by
      rw [hE]
      simp
    rw [hC]
    rw [if_neg (by decide : ¬(false = true))]
    exact hE
  · have hE2 : endsSlash (npPath2 p) = false := by
      cases hx : endsSlash (npPath2 p)
      · rfl
      · exact absurd hx hE
    have hC : ((isTrueOpt d || npDir1 p d || endsSlash p)
        && !endsSlash (npPath2 p)) = true := by
      rw [h, hE2]
      simp
    rw [hC, if_pos rfl]
    rw [replChars_id _ (posixNormChars_noBS _ (fun hx =>
      (List.mem_append.mp hx).elim (npPath2_noBS p)
        (fun hy => absurd (List.mem_singleton.mp hy) (by decide))))]
    exact posix_trailing _ (by simp) (endsSlash_concat_slash _)

theorem isTrueOpt_eq_some_true (d : Option Bool) (h : isTrueOpt d = true) :
    d = some true := by
  cases d with
  | none => exact absurd h (by decide)
  | some b =>
    cases b
    · exact absurd h (by decide)
    · rfl

theorem npDir1_false (p : List Char) (d : Option Bool)
    (h : npDir1 p d = false) :
    d.getD false = false ∧ isTrueOpt d = false := by
  unfold npDir1 at h
  by_cases h0 : d.getD false = true
  · rw [h0] at h
    simp at h
  · have h0' : d.getD false = false := by
      cases hx : d.getD false
      · rfl
      · exact absurd hx h0
    refine ⟨h0', ?_⟩
    cases hd : isTrueOpt d
    · rfl
    · have hds := isTrueOpt_eq_some_true d hd
      rw [hds] at h0'
      exact absurd h0' (by decide)

theorem npPath3_no_append (q : List Char) (d : Option Bool)
    (hC : ((isTrueOpt d || npDir1 q d || endsSlash q)
      && !endsSlash (npPath2 q)) = false) :
    npPath3 q d = npPath2 q := by
  unfold npPath3
  rw [hC]
  rw [if_neg (by decide : ¬(false = true))]

theorem npPath2_id (q : List Char) (hp1 : npPath1 q = q)
    (hs : startsSlash q = false) : npPath2 q = q := by
  unfold npPath2
  rw [hp1, hs]
  rw [if_neg (by decide : ¬(false = true))]

theorem npPath1_id (q : List Char) (hBS : '\\' ∉ q)
    (htrim : trimChars q = q) (hfix : posixNormChars q = q) :
    npPath1 q = q := by
  unfold npPath1
  rw [replChars_id q hBS, htrim, hfix, replChars_id q hBS]

/-! ## Idempotence of normalizePath on its own output -/

theorem normalizePathChars_idem (p : List Char) (d : Option Bool)
    (h1 : npPath3 p d ≠ [])
    (h2 : trimChars (npPath3 p d) = npPath3 p d)
    (h3 : npDir1 p d = true ∨ endsSlash (npPath3 p d) = false) :
    normalizePathChars (npPath3 p d) d = (npDir1 p d, npPath3 p d) := by
  have hkBS : '\\' ∉ npPath3 p d := npPath3_noBS p d
  have hkfix : posixNormChars (npPath3 p d) = npPath3 p d := npPath3_fixed p d h1
  have hrepl : replChars (npPath3 p d) = npPath3 p d := replChars_id _ hkBS
  have hp1k : npPath1 (npPath3 p d) = npPath3 p d := npPath1_id _ hkBS h2 hkfix
  show (npDir1 (npPath3 p d) d, npPath3 (npPath3 p d) d)
    = (npDir1 p d, npPath3 p d)
  cases hdir : npDir1 p d
  · -- directory flag false
    have hD := npDir1_false p d hdir
    have hke : endsSlash (npPath3 p d) = false := by
      rcases h3 with h3 | h3
      · rw [hdir] at h3
        exact absurd h3 (by decide)
      · exact h3
    have hks : startsSlash (npPath3 p d) = false := by
      cases hx : startsSlash (npPath3 p d)
      · rfl
      · have h4 := npPath3_starts p d hx
        rw [h4] at hke
        exact absurd hke (by decide)
    have hP2k : npPath2 (npPath3 p d) = npPath3 p d := npPath2_id _ hp1k hks
    have hdir' : npDir1 (npPath3 p d) d = false := by
      unfold npDir1
      rw [hrepl, hke, hD.2, hD.1]
      decide
    have hC : ((isTrueOpt d || npDir1 (npPath3 p d) d || endsSlash (npPath3 p d))
        && !endsSlash (npPath2 (npPath3 p d))) = false := by
      rw [hD.2, hdir', hke, hP2k, hke]
      decide
    have hsnd := (npPath3_no_append (npPath3 p d) d hC).trans hP2k
    rw [hdir', hsnd]
  · -- directory flag true
    have hke : endsSlash (npPath3 p d) = true := npPath3_trailing p d hdir
    by_cases hksl : npPath3 p d = ['/']
    · have hA : npDir1 (['/'] : List Char) d = true := by
        unfold npDir1
        rw [(by decide : endsSlash (replChars (['/'] : List Char)) = true)]
        rw [(by decide : endsSlash (['/'] : List Char) = true)]
        cases hd0 : d.getD false <;> simp [hd0]
      have hB : npPath3 (['/'] : List Char) d = ['/'] := by
        unfold npPath3
        have hC : ((isTrueOpt d || npDir1 (['/'] : List Char) d
            || endsSlash (['/'] : List Char))
            && !endsSlash (npPath2 (['/'] : List Char))) = true := by
          rw [hA, (by decide : endsSlash (['/'] : List Char) = true),
            (by decide : endsSlash (npPath2 (['/'] : List Char)) = false)]
          simp
        rw [hC, if_pos rfl]
        decide
      rw [hksl, hA, hB]
    · have hks : startsSlash (npPath3 p d) = false := by
        cases hx : startsSlash (npPath3 p d)
        · rfl
        · exact absurd (npPath3_starts p d hx) hksl
      have hP2k : npPath2 (npPath3 p d) = npPath3 p d := npPath2_id _ hp1k hks
      have hdir' : npDir1 (npPath3 p d) d = true := by
        unfold npDir1
        rw [hrepl, hke]
        cases hd0 : d.getD false <;> simp [hd0]
      have hC : ((isTrueOpt d || npDir1 (npPath3 p d) d
          || endsSlash (npPath3 p d))
          && !endsSlash (npPath2 (npPath3 p d))) = false := by
        rw [hP2k, hke]
        simp
      have hsnd := (npPath3_no_append (npPath3 p d) d hC).trans hP2k
      rw [hdir', hsnd]

/-! ## Claims about normalization idempotence -/

/-- Claim C6 (fails as stated): normalizing the key produced for the path
"/.." (which is the empty key) again yields key ".", not the empty key, so
normalization is not idempotent for all paths. -/
theorem normalizePath_not_idempotent :
    normalizePath (normalizePath "/.." none).path none
      ≠ normalizePath "/.." none := by
  decide

/-- Claim C6 amended: normalization is idempotent on every normalized
result whose key is nonempty, is unchanged by trimming (no leading or
trailing whitespace was exposed), and, when the directory flag came out
false, does not end in a slash.  The counterexamples are exactly the keys
the source cannot re-ingest: the empty key re-normalizes to ".", a key
with stray whitespace is trimmed on the second pass, and a key that ends
in "/" while the directory flag is false flips the flag on the second
pass. -/
theorem normalizePath_idempotent_amended (p : String) (d : Option Bool)
    (h1 : (normalizePath p d).path ≠ "")
    (h2 : jsTrim (normalizePath p d).path = (normalizePath p d).path)
    (h3 : (normalizePath p d).directory = true
      ∨ strEndsSlash (normalizePath p d).path = false) :
    normalizePath (normalizePath p d).path d = normalizePath p d := by
  have h1' : npPath3 p.data d ≠ [] := by
    intro hx
    exact h1 (congrArg (fun l => (⟨l⟩ : String)) hx)
  have h2' : trimChars (npPath3 p.data d) = npPath3 p.data d :=
    congrArg String.data h2
  have h3' : npDir1 p.data d = true ∨ endsSlash (npPath3 p.data d) = false := h3
  exact congrArg
    (fun r => (⟨r.1, ⟨r.2⟩⟩ : IAwsSimpleStorageServiceNormalizedPath))
    (normalizePathChars_idem p.data d h1' h2' h3')

/-- Witness for the amended C6 at a concrete path. -/
theorem normalizePath_idempotent_amended_witness :
    normalizePath (normalizePath "a/b" none).path none
      = normalizePath "a/b" none :=
  normalizePath_idempotent_amended "a/b" none (by decide) (by decide)
    (Or.inr (by decide))
